import Mathlib

/-!
Verification development for the `jpg_converter` web page
(`src/app/page.tsx`): a shallow embedding of its range parser,
PDF-splitter flow, image list operations, crop operation and
image-to-PDF composer, together with theorems about the embedded
definitions.

JavaScript numbers are modelled as exact fractions (`Frac`): an integer
numerator with a positive natural denominator, without normalisation,
so that every operation of the model reduces inside the kernel.
Float64 rounding and the non-finite values `Infinity`/`-Infinity` are
outside the model: the model's `Option Frac` uses `none` for NaN, and
the string `"Infinity"` is also mapped to `none`.
-/

/-- An exact fraction: `num / den` with `den` positive.  Stand-in for a
finite JavaScript number; arithmetic is exact (no float rounding) and
denominators are never normalised, so all operations are plain integer
arithmetic that the kernel can evaluate. -/
structure Frac where
  num : ℤ
  den : ℕ
  dpos : 0 < den
deriving DecidableEq

/-- The rational value of a fraction. -/
def Frac.toRat (a : Frac) : ℚ := (a.num : ℚ) / (a.den : ℚ)

/-- Embed a natural number. -/
def Frac.ofNat (n : ℕ) : Frac := ⟨(n : ℤ), 1, Nat.one_pos⟩

/-- Addition: cross multiplication, no normalisation. -/
def Frac.add (a b : Frac) : Frac :=
  ⟨a.num * (b.den : ℤ) + b.num * (a.den : ℤ), a.den * b.den, Nat.mul_pos a.dpos b.dpos⟩

/-- Subtraction: cross multiplication, no normalisation. -/
def Frac.sub (a b : Frac) : Frac :=
  ⟨a.num * (b.den : ℤ) - b.num * (a.den : ℤ), a.den * b.den, Nat.mul_pos a.dpos b.dpos⟩

/-- Multiplication. -/
def Frac.mul (a b : Frac) : Frac :=
  ⟨a.num * b.num, a.den * b.den, Nat.mul_pos a.dpos b.dpos⟩

/-- Negation. -/
def Frac.neg (a : Frac) : Frac := ⟨-a.num, a.den, a.dpos⟩

/-- Comparison `a ≤ b`, by cross multiplication. -/
def Frac.le (a b : Frac) : Prop := a.num * (b.den : ℤ) ≤ b.num * (a.den : ℤ)

instance (a b : Frac) : Decidable (Frac.le a b) := by
  unfold Frac.le; infer_instance

/-- Comparison `a < b`, by cross multiplication. -/
def Frac.lt (a b : Frac) : Prop := a.num * (b.den : ℤ) < b.num * (a.den : ℤ)

instance (a b : Frac) : Decidable (Frac.lt a b) := by
  unfold Frac.lt; infer_instance

/-!
JavaScript string-to-number conversion (`Number(string)`), as used by the
range parser in `splitPDF` (src/app/page.tsx lines 254-267).  This models
the ECMAScript `StringNumericLiteral` grammar over exact fractions:
surrounding white space is ignored, the empty (or all-white-space) string
converts to `0`, decimal literals may have a sign, a fractional part and
an exponent, and unsigned `0x`/`0o`/`0b` literals are recognised.
`none` plays the role of NaN.  (`Infinity` and float64 rounding are
outside the model, see the header comment.)
-/

/-- White-space characters ignored by JavaScript `Number` (ASCII white
space plus no-break space; other Unicode space characters do not occur
in the inputs considered here). -/
def isStrWs (c : Char) : Bool :=
  c = ' ' || c = '\t' || c = '\n' || c = '\r' || c = '\x0b' || c = '\x0c' || c = ' '

/-- Strip leading and trailing white space. -/
def trimWs (l : List Char) : List Char :=
  ((l.dropWhile isStrWs).reverse.dropWhile isStrWs).reverse

/-- Decimal digit value of a character, if any. -/
def decDigit (c : Char) : Option ℕ :=
  if '0' ≤ c ∧ c ≤ '9' then some (c.toNat - '0'.toNat) else none

/-- Hexadecimal digit value of a character, if any. -/
def hexDigit (c : Char) : Option ℕ :=
  if '0' ≤ c ∧ c ≤ '9' then some (c.toNat - '0'.toNat)
  else if 'a' ≤ c ∧ c ≤ 'f' then some (c.toNat - 'a'.toNat + 10)
  else if 'A' ≤ c ∧ c ≤ 'F' then some (c.toNat - 'A'.toNat + 10)
  else none

/-- Octal digit value of a character, if any. -/
def octDigit (c : Char) : Option ℕ :=
  if '0' ≤ c ∧ c ≤ '7' then some (c.toNat - '0'.toNat) else none

/-- Binary digit value of a character, if any. -/
def binDigit (c : Char) : Option ℕ :=
  if c = '0' ∨ c = '1' then some (c.toNat - '0'.toNat) else none

/-- Value of a digit string in base `b`. -/
def digitsToNat (b : ℕ) (ds : List ℕ) : ℕ := ds.foldl (fun a d => a * b + d) 0

/-- Split off the longest prefix of decimal digits. -/
def spanDigits : List Char → List ℕ × List Char
  | [] => ([], [])
  | c :: cs =>
    match decDigit c with
    | some d =>
      let p := spanDigits cs
      (d :: p.1, p.2)
    | none => ([], c :: cs)

/-- Parse an optional `ExponentPart` filling the whole remaining input:
the empty input means exponent `0`; otherwise `e`/`E`, an optional
sign and a nonempty digit string. -/
def parseExpTail (rest : List Char) : Option ℤ :=
  match rest with
  | [] => some 0
  | c :: cs =>
    if c = 'e' ∨ c = 'E' then
      let sd : ℤ × List Char :=
        match cs with
        | '+' :: t => (1, t)
        | '-' :: t => (-1, t)
        | t => (1, t)
      let p := spanDigits sd.2
      if p.1 ≠ [] ∧ p.2 = [] then some (sd.1 * (digitsToNat 10 p.1 : ℤ)) else none
    else none

/-- Apply a power-of-ten exponent to a fraction. -/
def applyExp (q : Frac) (e : ℤ) : Frac :=
  if 0 ≤ e then ⟨q.num * (10 : ℤ) ^ e.toNat, q.den, q.dpos⟩
  else ⟨q.num, q.den * 10 ^ (-e).toNat, Nat.mul_pos q.dpos (Nat.pos_pow_of_pos _ (by decide))⟩

/-- Parse an unsigned `StrUnsignedDecimalLiteral` (without `Infinity`),
requiring the whole input to be consumed: `digits [. digits] [exp]` or
`. digits [exp]`. -/
def parseUDec (t : List Char) : Option Frac :=
  match (spanDigits t).1, (spanDigits t).2 with
  | [], '.' :: r2 =>
    if (spanDigits r2).1 = [] then none
    else
      (parseExpTail (spanDigits r2).2).map fun e =>
        applyExp ⟨(digitsToNat 10 (spanDigits r2).1 : ℤ), 10 ^ (spanDigits r2).1.length,
          Nat.pos_pow_of_pos _ (by decide)⟩ e
  | [], _ => none
  | _ :: _, '.' :: r2 =>
    (parseExpTail (spanDigits r2).2).map fun e =>
      applyExp ((Frac.ofNat (digitsToNat 10 (spanDigits t).1)).add
        ⟨(digitsToNat 10 (spanDigits r2).1 : ℤ), 10 ^ (spanDigits r2).1.length,
          Nat.pos_pow_of_pos _ (by decide)⟩) e
  | _ :: _, r1 =>
    (parseExpTail r1).map fun e => applyExp (Frac.ofNat (digitsToNat 10 (spanDigits t).1)) e

/-- Parse a full digit string in base `b`, requiring at least one digit
and full consumption of the input. -/
def parseRadix (b : ℕ) (digf : Char → Option ℕ) (rest : List Char) : Option Frac :=
  match rest.mapM digf with
  | some ds => if ds = [] then none else some (Frac.ofNat (digitsToNat b ds))
  | none => none

/-- Parse an unsigned `NonDecimalIntegerLiteral` (`0x`, `0o`, `0b`). -/
def parseNonDec (t : List Char) : Option Frac :=
  match t with
  | c0 :: c1 :: rest =>
    if c0 = '0' then
      if c1 = 'x' ∨ c1 = 'X' then parseRadix 16 hexDigit rest
      else if c1 = 'o' ∨ c1 = 'O' then parseRadix 8 octDigit rest
      else if c1 = 'b' ∨ c1 = 'B' then parseRadix 2 binDigit rest
      else none
    else none
  | _ => none

/-- JavaScript `Number` on a string (model; `none` = NaN). -/
def jsNumber (s : List Char) : Option Frac :=
  let t := trimWs s
  if t = [] then some (Frac.ofNat 0)
  else if t.headD ' ' = '-' then (parseUDec t.tail).map Frac.neg
  else if t.headD ' ' = '+' then parseUDec t.tail
  else
    match parseNonDec t with
    | some q => some q
    | none => parseUDec t

/-!
The range parser of `splitPDF` (src/app/page.tsx lines 252-267):

```
const ranges = pageRanges.split(',');
const pagesToExtract: number[] = [];
for (const range of ranges) {
  if (range.includes('-')) {
    const [start, end] = range.split('-').map(Number);
    for (let i = start; i <= end; i++) {
      if (!isNaN(i)) pagesToExtract.push(i - 1);
    }
  } else {
    const page = Number(range);
    if (!isNaN(page)) pagesToExtract.push(page - 1);
  }
}
```

`String.prototype.split` with a one-character separator is modelled by
`splitOnChar`; the counting loop `for (let i = start; i <= end; i++)`
is modelled by `rangePush` applied to the exact number of iterations
`iterCount start end` (the loop variable starts at `start`, runs while
`i ≤ end` and increases by `1`, so it runs `⌊end - start⌋ + 1` times
when `start ≤ end` and `0` times otherwise; theorems
`iterCount_last_le` and `iterCount_next_gt` below justify this trip
count).  The loop body's `isNaN(i)` test is always false once the loop
runs, because `i` then starts from a non-NaN value: the model pushes
unconditionally, and a NaN bound is modelled by `none`, for which the
loop condition is false and no iteration happens.
-/

/-- JavaScript `str.split(sep)` for a one-character separator
(auxiliary: `acc` is the reversed current piece). -/
def splitOnCharAux (c : Char) : List Char → List Char → List (List Char)
  | [], acc => [acc.reverse]
  | x :: xs, acc =>
    if x = c then acc.reverse :: splitOnCharAux c xs []
    else splitOnCharAux c xs (x :: acc)

/-- JavaScript `str.split(sep)` for a one-character separator. -/
def splitOnChar (c : Char) (l : List Char) : List (List Char) :=
  splitOnCharAux c l []

/-- Number of iterations of `for (let i = start; i <= end; i++)`. -/
def iterCount (s e : Frac) : ℕ :=
  if Frac.le s e then ((e.sub s).num.toNat / (e.sub s).den) + 1 else 0

/-- One plus: the loop increment `i++`. -/
def Frac.succ (a : Frac) : Frac := ⟨a.num + (a.den : ℤ), a.den, a.dpos⟩

/-- `Frac` for `1`. -/
def Frac.one : Frac := ⟨1, 1, Nat.one_pos⟩

/-- The inner loop of the range parser: starting from `i`, push
`i - 1` and increment `i`, for the given number of iterations
(appending to the accumulated result list, as `Array.push` does). -/
def rangePush : ℕ → Frac → List Frac → List Frac
  | 0, _, acc => acc
  | n + 1, i, acc => rangePush n i.succ (acc ++ [i.sub Frac.one])

/-- First element of `tok.split('-')` fed to `Number` (`pieces[0]`;
an absent element is JavaScript `undefined`, and `Number(undefined)`
is NaN, modelled by `none`). -/
def rStart (tok : List Char) : Option Frac :=
  match splitOnChar '-' tok with
  | [] => none
  | p :: _ => jsNumber p

/-- Second element of `tok.split('-')` fed to `Number` (`pieces[1]`). -/
def rEnd (tok : List Char) : Option Frac :=
  match (splitOnChar '-' tok).drop 1 with
  | [] => none
  | p :: _ => jsNumber p

/-- The parser's main loop over the comma-separated tokens, carrying the
accumulated `pagesToExtract` array. -/
def parseLoop : List (List Char) → List Frac → List Frac
  | [], acc => acc
  | tok :: toks, acc =>
    if '-' ∈ tok then
      match rStart tok, rEnd tok with
      | some s, some e => parseLoop toks (rangePush (iterCount s e) s acc)
      | _, _ => parseLoop toks acc
    else
      match jsNumber tok with
      | some p => parseLoop toks (acc ++ [p.sub Frac.one])
      | none => parseLoop toks acc

/-- The page-range parser of `splitPDF`, on a list of characters. -/
def pagesToExtractL (s : List Char) : List Frac :=
  parseLoop (splitOnChar ',' s) []

/-- The page-range parser of `splitPDF`, on a string. -/
def pagesToExtract (s : String) : List Frac :=
  pagesToExtractL s.data

/-!
Descriptive form of the parser: the contribution of each comma-separated
token, and lemmas relating the imperative loop above to it.
-/

/-- Add a natural number to a fraction. -/
def Frac.addNat (a : Frac) (k : ℕ) : Frac :=
  ⟨a.num + (k : ℤ) * (a.den : ℤ), a.den, a.dpos⟩

/-- The indices contributed by one comma-separated token: a token
containing `-` contributes `start - 1, start, …` while the running
value stays `≤ end` (nothing if an endpoint is NaN or `start > end`);
a token without `-` contributes its numeric value minus one (nothing
if NaN). -/
def tokenIndices (tok : List Char) : List Frac :=
  if '-' ∈ tok then
    match rStart tok, rEnd tok with
    | some s, some e => (List.range (iterCount s e)).map fun k => (s.addNat k).sub Frac.one
    | _, _ => []
  else
    match jsNumber tok with
    | some p => [p.sub Frac.one]
    | none => []

/-!
The PDF-splitter flow `splitPDF` (src/app/page.tsx lines 239-299).
The source document, the pdf-lib calls and the notification channel are
modelled as follows.

Modelled from the spec: the pdf-lib collaborators `PDFDocument.load`,
`copyPages` and `save` are external black boxes that are not part of the
repository.  Per the spec's contract, `load` either yields the page list
of the document or throws (an unparsable document, `doc = none`);
`copyPages` copies the pages at the given zero-based indices in the given
order, duplicates allowed, and throws for any index outside
`[0, pageCount)` (any non-integral or negative index is outside);
`save` either succeeds or throws (`saveOk`).  All throws land in the
single `catch` of `splitPDF`, which shows one error-level notification.
-/

/-- Severity of a SweetAlert notification. -/
inductive Severity where
  | warning
  | error
  | success
deriving DecidableEq

/-- An uploaded source PDF: its file name, its page list if pdf-lib can
parse it (`none` = `PDFDocument.load` throws), and whether `save`
succeeds. -/
structure SrcPdf where
  name : String
  doc : Option (List ℕ)
  saveOk : Bool
deriving DecidableEq

/-- Resolve a JS-number index against a document of `n` pages: the page
position if the value is a non-negative integer `< n`, otherwise `none`
(pdf-lib throws). -/
def Frac.asPageIdx (q : Frac) (n : ℕ) : Option ℕ :=
  if q.num % (q.den : ℤ) = 0 ∧ 0 ≤ q.num ∧ q.num / (q.den : ℤ) < (n : ℤ) then
    some (q.num / (q.den : ℤ)).toNat
  else none

/-- `newPdf.copyPages(originalPdf, pagesToExtract)`: copies of the pages
at the given indices, in the given order; `none` if any index fails to
resolve. -/
def copyPages (pgs : List ℕ) : List Frac → Option (List ℕ)
  | [] => some []
  | q :: rest =>
    match (q.asPageIdx pgs.length).bind fun i => pgs[i]?, copyPages pgs rest with
    | some v, some vs => some (v :: vs)
    | _, _ => none

/-- Observable outcome of one `splitPDF` invocation: the notification
shown, whether the source document was read at all, and the offered
download (name and page list), if any. -/
structure SplitOutcome where
  sev : Severity
  title : String
  loadAttempted : Bool
  download : Option (String × List ℕ)
deriving DecidableEq

/-- The `splitPDF` handler: guard clauses, range parsing, then
load/copy/save under one `try`/`catch`. -/
def splitPDF (pdfFile : Option SrcPdf) (pageRanges : String) : SplitOutcome :=
  match pdfFile with
  | none => ⟨Severity.warning, "No PDF", false, none⟩
  | some f =>
    if trimWs pageRanges.data = [] then ⟨Severity.warning, "No ranges", false, none⟩
    else if pagesToExtract pageRanges = [] then ⟨Severity.error, "Invalid ranges", false, none⟩
    else
      match f.doc with
      | none => ⟨Severity.error, "Error", true, none⟩
      | some pgs =>
        match copyPages pgs (pagesToExtract pageRanges) with
        | none => ⟨Severity.error, "Error", true, none⟩
        | some copied =>
          if f.saveOk then
            ⟨Severity.success, "Success", true, some ("split_" ++ f.name, copied)⟩
          else ⟨Severity.error, "Error", true, none⟩

/-!
The image list and its operations (src/app/page.tsx lines 14-20, 37-59,
139-164), the crop operation (lines 78-136) and the composer
(lines 166-230).

Resource handles (`URL.createObjectURL` / `URL.revokeObjectURL`) are
modelled by the inductive `Url` together with the `live` list of an
`AppState`: `createObjectURL` appends the created handle to `live`,
`revokeObjectURL` erases it.  (Distinctness of freshly created handles
is up to the inputs chosen in each theorem.)
-/

/-- A crop rectangle (react-image-crop `PixelCrop`): displayed-space
coordinates. -/
structure Rect where
  x : Frac
  y : Frac
  w : Frac
  h : Frac
deriving DecidableEq

/-- A displayable resource handle: an object URL for an uploaded file,
or an object URL for a cropped blob (source handle, sampled region in
natural coordinates, output width and height in displayed units). -/
inductive Url where
  | obj : ℕ → Url
  | croppedOf : Url → Rect → Frac → Frac → Url
deriving DecidableEq

/-- One entry of the image list (`interface ImageFile`); the `File`
payload is identified with the object URL created for it. -/
structure ImageFile where
  id : ℕ
  url : Url
  croppedUrl : Option Url
  crop : Option Rect
deriving DecidableEq

/-- The page state relevant to the image pipeline: the ordered image
list and the set (as a list) of live, unrevoked object URLs. -/
structure AppState where
  images : List ImageFile
  live : List Url
deriving DecidableEq

/-- Entry created for one selected file: fresh id, fresh object URL, no
crop (`handleImageFileChange`, lines 39-43). -/
def mkEntry (p : ℕ × ℕ) : ImageFile := ⟨p.1, Url.obj p.2, none, none⟩

/-- `handleImageFileChange`: append one new entry per selected file;
never replaces existing entries.  A file is given as a pair of the id
produced for it and the token of its object URL. -/
def handleImageFileChange (st : AppState) (files : List (ℕ × ℕ)) : AppState :=
  ⟨st.images ++ files.map mkEntry, st.live ++ files.map fun p => Url.obj p.2⟩

/-- `removeImage` (lines 48-59): drop the entry with the given id and
revoke its object URLs (`find` locates the first matching entry). -/
def removeImage (st : AppState) (id : ℕ) : AppState :=
  match st.images.find? fun img => img.id = id with
  | none => ⟨st.images.filter fun img => img.id ≠ id, st.live⟩
  | some r =>
    match r.croppedUrl with
    | none => ⟨st.images.filter fun img => img.id ≠ id, st.live.erase r.url⟩
    | some cu => ⟨st.images.filter fun img => img.id ≠ id, (st.live.erase r.url).erase cu⟩

/-- The list mutation of `handleDrop` (lines 149-164): no-op when the
dragged and drop positions coincide (or when no drag is in flight,
`dragIndex === null`, which has no counterpart here since the drag index
is always an index of a rendered tile); otherwise remove the entry at
`i` and reinsert it at position `j`. -/
def dragDropMove {α : Type} (l : List α) (i j : ℕ) : List α :=
  if i = j then l
  else
    match l[i]? with
    | none => l
    | some x => (l.eraseIdx i).insertIdx j x

/-- `handleDrop` on the page state. -/
def handleDrop (st : AppState) (i j : ℕ) : AppState :=
  ⟨dragDropMove st.images i j, st.live⟩

/-- Division (used for the crop scale factors
`naturalWidth / width`); division by zero is outside the model (the
handler never divides by zero for a rendered image) and yields `0`. -/
def Frac.div (a b : Frac) : Frac :=
  if h : 0 < b.num then
    ⟨a.num * (b.den : ℤ), a.den * b.num.toNat, Nat.mul_pos a.dpos (by omega)⟩
  else if h2 : b.num < 0 then
    ⟨-(a.num * (b.den : ℤ)), a.den * (-b.num).toNat, Nat.mul_pos a.dpos (by omega)⟩
  else ⟨0, 1, Nat.one_pos⟩

/-- Outcome of `getCroppedImg` (src/app/page.tsx lines 78-113):
`errCanvas`/`errCtx` are the two `Promise.reject` paths; `pending` is
the path where `canvas.toBlob` passes `null` to its callback (a canvas
whose coerced integer width or height is zero has no pixels), so
`resolve` is never called and the promise never settles; `done u` is a
fulfilled promise carrying the object URL of the cropped blob. -/
inductive CropResult where
  | errCanvas
  | errCtx
  | pending
  | done : Url → CropResult
deriving DecidableEq

/-- The object URL of the cropped blob: identified by its source
handle, the sampled region (the displayed-space rectangle scaled by
`naturalSize / displayedSize`) and the output size. -/
def croppedUrlFor (imgSrc : Url) (natW natH dispW dispH : Frac) (c : Rect) : Url :=
  Url.croppedOf imgSrc
    ⟨c.x.mul (natW.div dispW), c.y.mul (natH.div dispH),
     c.w.mul (natW.div dispW), c.h.mul (natH.div dispH)⟩ c.w c.h

/-- `getCroppedImg`: scale the displayed-space rectangle by
`naturalSize / displayedSize`, draw that region of the source image
onto a `crop.width × crop.height` canvas, and encode it
(`canvas.width = crop.width` coerces to an integer; the blob exists iff
both coerced dimensions are at least 1, that is, iff `crop.width ≥ 1`
and `crop.height ≥ 1`). -/
def getCroppedImg (canvasOk ctxOk : Bool) (imgSrc : Url)
    (natW natH dispW dispH : Frac) (c : Rect) : CropResult :=
  if canvasOk = false then CropResult.errCanvas
  else if ctxOk = false then CropResult.errCtx
  else
    if Frac.le Frac.one c.w ∧ Frac.le Frac.one c.h then
      CropResult.done (croppedUrlFor imgSrc natW natH dispW dispH c)
    else CropResult.pending

/-- Observable outcome of one `applyCrop` invocation. -/
inductive ApplyOutcome where
  | skipped
  | failedReported
  | neverResolves
  | applied
deriving DecidableEq

/-- `applyCrop` (src/app/page.tsx lines 115-136).  The guard returns
without doing anything if no image element, completed crop or modal
image is present.  The crop dialog's `img` element has
`src={fullScreenImage.url}` (line 560), so the sampled source is always
the entry's original URL, never its cropped URL.  On fulfilment the
entry with the modal image's id gets the new cropped URL and rectangle
(`setImages(prev.map(...))`); the promise-rejection paths show one
error notification and touch nothing; on the never-settling path
nothing after the `await` runs. -/
def applyCrop (st : AppState) (imgRefOk : Bool) (completedCrop : Option Rect)
    (fullScreenImage : Option ImageFile) (canvasOk ctxOk : Bool)
    (natW natH dispW dispH : Frac) : AppState × ApplyOutcome :=
  match imgRefOk, completedCrop, fullScreenImage with
  | false, _, _ => (st, ApplyOutcome.skipped)
  | _, none, _ => (st, ApplyOutcome.skipped)
  | _, _, none => (st, ApplyOutcome.skipped)
  | true, some c, some fsi =>
    match getCroppedImg canvasOk ctxOk fsi.url natW natH dispW dispH c with
    | CropResult.errCanvas => (st, ApplyOutcome.failedReported)
    | CropResult.errCtx => (st, ApplyOutcome.failedReported)
    | CropResult.pending => (st, ApplyOutcome.neverResolves)
    | CropResult.done u =>
      (⟨st.images.map fun img =>
          if img.id = fsi.id then { img with croppedUrl := some u, crop := some c } else img,
        u :: st.live⟩, ApplyOutcome.applied)

/-!
Operation sequences over the image list, for the list invariants.
-/

/-- One user operation on the image list. -/
inductive Op where
  | addImgs : List (ℕ × ℕ) → Op
  | removeImg : ℕ → Op
  | dropAt : ℕ → ℕ → Op
deriving DecidableEq

/-- Apply one operation to the page state. -/
def applyOp (st : AppState) : Op → AppState
  | Op.addImgs files => handleImageFileChange st files
  | Op.removeImg id => removeImage st id
  | Op.dropAt i j => handleDrop st i j

/-- Run a sequence of operations. -/
def runOps (st : AppState) (ops : List Op) : AppState := ops.foldl applyOp st

/-- Well-formedness of one operation against the current state: ids
created by an add are fresh and mutually distinct (the intent of the
random id generation at line 40), and drag/drop positions are positions
of rendered tiles. -/
def opWF (st : AppState) : Op → Prop
  | Op.addImgs files =>
    (files.map Prod.fst).Nodup ∧ ∀ p ∈ files, p.1 ∉ st.images.map ImageFile.id
  | Op.removeImg _ => True
  | Op.dropAt i j => i < st.images.length ∧ j < st.images.length

instance instDecOpWF (st : AppState) (op : Op) : Decidable (opWF st op) :=
  match op with
  | Op.addImgs _ => inferInstanceAs (Decidable (_ ∧ _))
  | Op.removeImg _ => inferInstanceAs (Decidable True)
  | Op.dropAt _ _ => inferInstanceAs (Decidable (_ ∧ _))

/-- Well-formedness of an operation sequence, step by step. -/
def wfOps : AppState → List Op → Prop
  | _, [] => True
  | st, op :: ops => opWF st op ∧ wfOps (applyOp st op) ops

instance instDecWfOps : (st : AppState) → (ops : List Op) → Decidable (wfOps st ops)
  | _, [] => inferInstanceAs (Decidable True)
  | st, op :: ops =>
    have := instDecWfOps (applyOp st op) ops
    inferInstanceAs (Decidable (_ ∧ _))

/-- The entries created by the adds of an operation sequence. -/
def addedEntries (ops : List Op) : List ImageFile :=
  ops.flatMap fun op =>
    match op with
    | Op.addImgs files => files.map mkEntry
    | _ => []

/-!
The composer `generatePDF` (src/app/page.tsx lines 166-230).

Modelled from the spec: the jsPDF collaborator is an external black box;
per the spec's contract `new jsPDF({orientation, unit, format:[w,h]})`
creates a document whose first page has exactly size `w × h` (the
orientation argument passed by the code, `mmWidth > mmHeight ?
'landscape' : 'portrait'`, agrees with the format, so jsPDF does not
swap the dimensions), `addPage([w,h])` appends a page of exactly that
size, and `addImage(data,'JPEG',x,y,w,h)` places the image at `(x,y)`
with size `w × h` on the current page.  Decoding an image is modelled
by an environment `decode : Url → ℕ × ℕ` giving the pixel width and
height of the image behind a URL (`imageElement.width/height` of a
loaded, detached `Image` are its natural dimensions). -/

/-- One output page: its size in mm, and the image placement on it. -/
structure Page where
  wMM : Frac
  hMM : Frac
  imgUrl : Url
  imgX : Frac
  imgY : Frac
  imgW : Frac
  imgH : Frac
deriving DecidableEq

/-- `jsPDF` page orientation as a derived property of the page size:
landscape iff width exceeds height (exactly the expression
`mmWidth > mmHeight ? 'landscape' : 'portrait'` at line 204). -/
def Page.landscape (p : Page) : Prop := Frac.lt p.hMM p.wMM

instance (p : Page) : Decidable p.landscape := by
  unfold Page.landscape; infer_instance

/-- `img.croppedUrl || img.url` (line 179; a present cropped URL is
never the empty string, so `||` is the `Option.getD` choice). -/
def effectiveUrl (img : ImageFile) : Url :=
  match img.croppedUrl with
  | some u => u
  | none => img.url

/-- `Frac` for `0`. -/
def Frac.zero : Frac := ⟨0, 1, Nat.one_pos⟩

/-- `(pixels * 25.4) / 72`, exactly (lines 198-199). -/
def mmOfPx (px : ℕ) : Frac := ⟨(px : ℤ) * 254, 720, by decide⟩

/-- The page built for one image URL: page size from the decoded pixel
size via `mmOfPx`, image drawn at `(0,0)` covering the page
(`pdf.addImage(imageData, 'JPEG', 0, 0, mmWidth, mmHeight)`, line 215). -/
def mkPage (decode : Url → ℕ × ℕ) (u : Url) : Page :=
  ⟨mmOfPx (decode u).1, mmOfPx (decode u).2, u, Frac.zero, Frac.zero,
    mmOfPx (decode u).1, mmOfPx (decode u).2⟩

/-- The per-image loop of `generatePDF` (lines 177-221): `pdf` starts
as `undefined` (`none`); the first iteration creates the document with
the first page, later iterations append a page (in the source this is
guarded by `i === 0`, which coincides with `pdf` being `undefined`
since `pdf` is assigned exactly on the first iteration). -/
def generatePDFLoop (decode : Url → ℕ × ℕ) :
    List ImageFile → Option (List Page) → Option (List Page)
  | [], pdf => pdf
  | img :: rest, none =>
    generatePDFLoop decode rest (some [mkPage decode (effectiveUrl img)])
  | img :: rest, some pgs =>
    generatePDFLoop decode rest (some (pgs ++ [mkPage decode (effectiveUrl img)]))

/-- Observable outcome of `generatePDF`: the empty-list warning, the
saved document, or the crash of `(pdf as jsPDF).save` when `pdf` is
still `undefined` (unreachable: the loop ran at least once). -/
inductive GenResult where
  | warnedNoImages
  | crashed
  | saved : String → List Page → GenResult
deriving DecidableEq

/-- The `generatePDF` handler (lines 166-230). -/
def generatePDF (decode : Url → ℕ × ℕ) (images : List ImageFile) : GenResult :=
  if images.isEmpty then GenResult.warnedNoImages
  else
    match generatePDFLoop decode images none with
    | some pgs => GenResult.saved "converted.pdf" pgs
    | none => GenResult.crashed

/-- The page the spec prescribes for one image entry: sized from the
effective (cropped-if-present) image via `mm = px * 25.4 / 72`, image
at the origin covering the page. -/
def specPage (decode : Url → ℕ × ℕ) (img : ImageFile) : Page :=
  mkPage decode (effectiveUrl img)

/-!
Concrete fixtures used by the claim theorems below.
-/

/-- A cropped-blob URL standing for a previously applied crop. -/
def urlPrevCrop : Url :=
  Url.croppedOf (Url.obj 0) ⟨Frac.zero, Frac.zero, Frac.one, Frac.one⟩ Frac.one Frac.one

/-- The rectangle of that previous crop. -/
def rectPrev : Rect := ⟨Frac.zero, Frac.zero, Frac.one, Frac.one⟩

/-- An entry that already carries a cropped reference. -/
def entryCropped : ImageFile := ⟨1, Url.obj 0, some urlPrevCrop, some rectPrev⟩

/-- A state holding that entry, with both of its handles live. -/
def stateCropped : AppState := ⟨[entryCropped], [Url.obj 0, urlPrevCrop]⟩

/-- A fresh 2×2 crop rectangle. -/
def rectNew : Rect := ⟨Frac.zero, Frac.zero, ⟨2, 1, Nat.one_pos⟩, ⟨2, 1, Nat.one_pos⟩⟩

/-- Re-cropping the already-cropped entry. -/
def recropResult : AppState × ApplyOutcome :=
  applyCrop stateCropped true (some rectNew) (some entryCropped) true true
    Frac.one Frac.one Frac.one Frac.one

/-- A degenerate crop rectangle: zero width. -/
def rectZeroW : Rect := ⟨Frac.zero, Frac.zero, Frac.zero, ⟨2, 1, Nat.one_pos⟩⟩

/-- Cropping with the degenerate rectangle. -/
def degenResult : AppState × ApplyOutcome :=
  applyCrop stateCropped true (some rectZeroW) (some entryCropped) true true
    Frac.one Frac.one Frac.one Frac.one

/-- An example operation sequence: add two images, swap them, remove
one. -/
def opsExample : List Op := [Op.addImgs [(1, 0), (2, 1)], Op.dropAt 0 1, Op.removeImg 1]

/-- The empty page state. -/
def stEmpty : AppState := ⟨[], []⟩

/-- A three-page source document whose save succeeds. -/
def srcPdfExample : SrcPdf := ⟨"doc.pdf", some [10, 20, 30], true⟩

theorem Frac.den_cast_pos (a : Frac) : (0 : ℚ) < (a.den : ℚ) := by
  exact_mod_cast a.dpos

theorem Frac.toRat_ofNat (n : ℕ) : (Frac.ofNat n).toRat = (n : ℚ) := by
  simp [Frac.toRat, Frac.ofNat]

theorem Frac.toRat_add (a b : Frac) : (a.add b).toRat = a.toRat + b.toRat := by
  have ha := a.den_cast_pos
  have hb := b.den_cast_pos
  simp only [Frac.toRat, Frac.add]
  push_cast
  field_simp

theorem Frac.toRat_sub (a b : Frac) : (a.sub b).toRat = a.toRat - b.toRat := by
  have ha := a.den_cast_pos
  have hb := b.den_cast_pos
  simp only [Frac.toRat, Frac.sub]
  push_cast
  field_simp
  ring

theorem Frac.toRat_mul (a b : Frac) : (a.mul b).toRat = a.toRat * b.toRat := by
  have ha := a.den_cast_pos
  have hb := b.den_cast_pos
  simp only [Frac.toRat, Frac.mul]
  push_cast
  field_simp

theorem Frac.toRat_neg (a : Frac) : a.neg.toRat = -a.toRat := by
  simp [Frac.toRat, Frac.neg, neg_div]

theorem Frac.le_iff (a b : Frac) : a.le b ↔ a.toRat ≤ b.toRat := by
  have ha := a.den_cast_pos
  have hb := b.den_cast_pos
  rw [Frac.toRat, Frac.toRat, div_le_div_iff₀ ha hb, Frac.le]
  exact_mod_cast Iff.rfl

theorem Frac.lt_iff (a b : Frac) : a.lt b ↔ a.toRat < b.toRat := by
  have ha := a.den_cast_pos
  have hb := b.den_cast_pos
  rw [Frac.toRat, Frac.toRat, div_lt_div_iff₀ ha hb, Frac.lt]
  exact_mod_cast Iff.rfl

theorem Frac.toRat_nonneg {a : Frac} (h : 0 ≤ a.num) : 0 ≤ a.toRat := by
  exact div_nonneg (by exact_mod_cast h) (le_of_lt a.den_cast_pos)

theorem pagesToExtract_sanity_list : pagesToExtract "1-3,5" = [⟨0, 1, Nat.one_pos⟩, ⟨1, 1, Nat.one_pos⟩,
    ⟨2, 1, Nat.one_pos⟩, ⟨4, 1, Nat.one_pos⟩] := by decide

theorem pagesToExtract_sanity_nan : pagesToExtract "abc" = [] := by decide

theorem pagesToExtract_sanity_reversed : pagesToExtract "3-1" = [] := by decide

theorem Frac.addNat_zero (a : Frac) : a.addNat 0 = a := by
  cases a; simp [Frac.addNat]

theorem Frac.succ_addNat (a : Frac) (k : ℕ) : a.succ.addNat k = a.addNat (k + 1) := by
  cases a; simp [Frac.addNat, Frac.succ]; ring

theorem Frac.toRat_addNat (a : Frac) (k : ℕ) : (a.addNat k).toRat = a.toRat + k := by
  have ha := a.den_cast_pos
  simp only [Frac.toRat, Frac.addNat]
  push_cast
  field_simp

theorem Frac.toRat_one : Frac.one.toRat = 1 := by
  simp [Frac.toRat, Frac.one]

/-- Unfolding of the inner loop into a map over `List.range`. -/
theorem rangePush_eq (n : ℕ) (i : Frac) (acc : List Frac) :
    rangePush n i acc = acc ++ (List.range n).map fun k => (i.addNat k).sub Frac.one := by
  induction n generalizing i acc with
  | zero => simp [rangePush]
  | succ n ih =>
    rw [rangePush, ih, List.range_succ_eq_map, List.map_cons, List.map_map]
    have h1 : List.map ((fun k => (i.addNat k).sub Frac.one) ∘ Nat.succ) (List.range n) =
        List.map (fun k => (i.succ.addNat k).sub Frac.one) (List.range n) := by
      apply List.map_congr_left
      intro k _
      simp [Function.comp, Frac.succ_addNat]
    rw [h1, Frac.addNat_zero]
    simp

/-- Unfolding of the parser's main loop: it appends, token by token,
the contribution of each token. -/
theorem parseLoop_eq (toks : List (List Char)) (acc : List Frac) :
    parseLoop toks acc = acc ++ toks.flatMap tokenIndices := by
  induction toks generalizing acc with
  | nil => simp [parseLoop]
  | cons tok toks ih =>
    rw [parseLoop, List.flatMap_cons, tokenIndices]
    by_cases hm : '-' ∈ tok
    · simp only [if_pos hm]
      cases hs : rStart tok with
      | none => cases he : rEnd tok with
        | none => dsimp only; rw [ih]; simp
        | some e => dsimp only; rw [ih]; simp
      | some s => cases he : rEnd tok with
        | none => dsimp only; rw [ih]; simp
        | some e => dsimp only; rw [ih, rangePush_eq]; simp
    · simp only [if_neg hm]
      cases hp : jsNumber tok with
      | none => dsimp only; rw [ih]; simp
      | some p => dsimp only; rw [ih]; simp

/-- The parser, descriptively: concatenation of the per-token
contributions over the comma-split of the expression. -/
theorem pagesToExtractL_eq (s : List Char) :
    pagesToExtractL s = (splitOnChar ',' s).flatMap tokenIndices := by
  rw [pagesToExtractL, parseLoop_eq]; simp

/-- Justification of the modelled trip count, part 1: for every counted
iteration the loop condition `i ≤ end` indeed holds (`i` being
`start + k` at the `k`-th iteration). -/
theorem iterCount_last_le {s e : Frac} (h : Frac.le s e) {k : ℕ}
    (hk : k < iterCount s e) : Frac.le (s.addNat k) e := by
  rw [Frac.le_iff, Frac.toRat_addNat]
  rw [Frac.le_iff] at h
  have hd : (0 : ℚ) ≤ e.toRat - s.toRat := by linarith
  have hnum : ((e.sub s).num.toNat : ℤ) = (e.sub s).num := by
    have : (0 : ℚ) ≤ (e.sub s).toRat := by rw [Frac.toRat_sub]; linarith
    have hge : 0 ≤ (e.sub s).num := by
      by_contra hneg
      push_neg at hneg
      have : (e.sub s).toRat < 0 := by
        apply div_neg_of_neg_of_pos _ (e.sub s).den_cast_pos
        exact_mod_cast hneg
      linarith
    exact Int.toNat_of_nonneg hge
  rw [iterCount, if_pos (by rw [Frac.le_iff]; linarith)] at hk
  have hk2 : k ≤ (e.sub s).num.toNat / (e.sub s).den := Nat.lt_succ_iff.mp hk
  have hmul : k * (e.sub s).den ≤ (e.sub s).num.toNat :=
    (Nat.le_div_iff_mul_le (e.sub s).dpos).mp hk2
  have hq : (k : ℚ) ≤ (e.sub s).toRat := by
    rw [Frac.toRat, le_div_iff₀ (e.sub s).den_cast_pos]
    calc (k : ℚ) * (e.sub s).den ≤ ((e.sub s).num.toNat : ℚ) := by exact_mod_cast hmul
    _ = ((e.sub s).num : ℚ) := by exact_mod_cast congrArg Int.cast hnum
  rw [Frac.toRat_sub] at hq
  linarith

/-- Justification of the modelled trip count, part 2: after the counted
iterations the loop condition fails, so the loop stops exactly there. -/
theorem iterCount_next_gt {s e : Frac} (h : Frac.le s e) :
    ¬ Frac.le (s.addNat (iterCount s e)) e := by
  rw [Frac.le_iff, Frac.toRat_addNat]
  rw [Frac.le_iff] at h
  rw [iterCount, if_pos (by rw [Frac.le_iff]; linarith)]
  push_neg
  set d := e.sub s with hdef
  have hlt := Nat.mod_lt d.num.toNat d.dpos
  have hnat : d.num.toNat < (d.num.toNat / d.den + 1) * d.den := by
    calc d.num.toNat = d.den * (d.num.toNat / d.den) + d.num.toNat % d.den :=
          (Nat.div_add_mod d.num.toNat d.den).symm
    _ < d.den * (d.num.toNat / d.den) + d.den := Nat.add_lt_add_left hlt _
    _ = (d.num.toNat / d.den + 1) * d.den := by ring
  have hnum : (d.num.toNat : ℤ) = d.num := by
    have : (0 : ℚ) ≤ d.toRat := by rw [hdef, Frac.toRat_sub]; linarith
    have hge : 0 ≤ d.num := by
      by_contra hneg
      push_neg at hneg
      have : d.toRat < 0 := by
        apply div_neg_of_neg_of_pos _ d.den_cast_pos
        exact_mod_cast hneg
      linarith
    exact Int.toNat_of_nonneg hge
  have hq : d.toRat < (d.num.toNat / d.den + 1 : ℕ) := by
    rw [Frac.toRat, div_lt_iff₀ d.den_cast_pos]
    calc ((d.num : ℚ)) = ((d.num.toNat : ℕ) : ℚ) := by exact_mod_cast (congrArg Int.cast hnum).symm
    _ < (((d.num.toNat / d.den + 1) * d.den : ℕ) : ℚ) := by exact_mod_cast hnat
    _ = ((d.num.toNat / d.den + 1 : ℕ) : ℚ) * (d.den : ℚ) := by push_cast; ring
  rw [hdef, Frac.toRat_sub] at hq
  push_cast at hq ⊢
  linarith

/-!
Sign analysis: a token (or `split('-')` piece) that contains no `-`
character can only convert to a non-negative number, so every parsed
index is at least `-1`.
-/

theorem splitOnCharAux_sep_not_mem (c : Char) (l : List Char) :
    ∀ acc, c ∉ acc → ∀ p ∈ splitOnCharAux c l acc, c ∉ p := by
  induction l with
  | nil =>
    intro acc hacc p hp
    simp only [splitOnCharAux, List.mem_singleton] at hp
    subst hp
    simpa [List.mem_reverse] using hacc
  | cons x xs ih =>
    intro acc hacc p hp
    rw [splitOnCharAux] at hp
    by_cases hx : x = c
    · rw [if_pos hx] at hp
      rcases List.mem_cons.mp hp with h | h
      · subst h; simpa [List.mem_reverse] using hacc
      · exact ih [] (List.not_mem_nil c) p h
    · rw [if_neg hx] at hp
      refine ih (x :: acc) ?_ p hp
      intro hmem
      rcases List.mem_cons.mp hmem with h | h
      · exact hx h.symm
      · exact hacc h

theorem splitOnChar_sep_not_mem (c : Char) (l : List Char) :
    ∀ p ∈ splitOnChar c l, c ∉ p :=
  splitOnCharAux_sep_not_mem c l [] (List.not_mem_nil c)

theorem trimWs_subset (l : List Char) : trimWs l ⊆ l := by
  intro x hx
  rw [trimWs, List.mem_reverse] at hx
  have h1 := (List.dropWhile_sublist (l := (l.dropWhile isStrWs).reverse) isStrWs).subset hx
  rw [List.mem_reverse] at h1
  exact (List.dropWhile_sublist isStrWs).subset h1

theorem applyExp_num_nonneg {q : Frac} (h : 0 ≤ q.num) (e : ℤ) :
    0 ≤ (applyExp q e).num := by
  rw [applyExp]
  split
  · exact mul_nonneg h (pow_nonneg (by norm_num) _)
  · exact h

theorem add_num_nonneg {a b : Frac} (ha : 0 ≤ a.num) (hb : 0 ≤ b.num) :
    0 ≤ (a.add b).num := by
  have h1 : (0 : ℤ) ≤ (b.den : ℤ) := Int.natCast_nonneg _
  have h2 : (0 : ℤ) ≤ (a.den : ℤ) := Int.natCast_nonneg _
  exact add_nonneg (mul_nonneg ha h1) (mul_nonneg hb h2)

theorem ofNat_num_nonneg (n : ℕ) : 0 ≤ (Frac.ofNat n).num := Int.natCast_nonneg _

theorem parseUDec_num_nonneg {t : List Char} {q : Frac}
    (h : parseUDec t = some q) : 0 ≤ q.num := by
  rw [parseUDec] at h
  split at h
  · split at h
    · exact absurd h (by simp)
    · rcases Option.map_eq_some'.mp h with ⟨e, _, he⟩
      subst he
      exact applyExp_num_nonneg (Int.natCast_nonneg _) e
  · exact absurd h (by simp)
  · rcases Option.map_eq_some'.mp h with ⟨e, _, he⟩
    subst he
    exact applyExp_num_nonneg (add_num_nonneg (ofNat_num_nonneg _) (Int.natCast_nonneg _)) e
  · rcases Option.map_eq_some'.mp h with ⟨e, _, he⟩
    subst he
    exact applyExp_num_nonneg (ofNat_num_nonneg _) e

theorem parseRadix_num_nonneg {b : ℕ} {digf : Char → Option ℕ} {t : List Char} {q : Frac}
    (h : parseRadix b digf t = some q) : 0 ≤ q.num := by
  rw [parseRadix] at h
  cases hm : t.mapM digf with
  | none => rw [hm] at h; exact absurd h (by simp)
  | some ds =>
    rw [hm] at h
    dsimp only at h
    split at h
    · exact absurd h (by simp)
    · cases h; exact ofNat_num_nonneg _

theorem parseNonDec_num_nonneg {t : List Char} {q : Frac}
    (h : parseNonDec t = some q) : 0 ≤ q.num := by
  match t, h with
  | [], h => exact absurd h (by simp [parseNonDec])
  | [c], h => exact absurd h (by simp [parseNonDec])
  | c0 :: c1 :: rest, h =>
    rw [parseNonDec] at h
    repeat' split at h
    all_goals first
      | exact parseRadix_num_nonneg h
      | exact Option.noConfusion h

/-- A string without a `-` character can only `Number`-convert to a
non-negative value. -/
theorem jsNumber_num_nonneg {s : List Char} {q : Frac}
    (hm : '-' ∉ s) (h : jsNumber s = some q) : 0 ≤ q.num := by
  rw [jsNumber] at h
  by_cases ht : trimWs s = []
  · rw [if_pos ht] at h
    cases h
    exact le_refl 0
  · rw [if_neg ht] at h
    have hsub : '-' ∉ trimWs s := fun hx => hm (trimWs_subset s hx)
    have hhead : (trimWs s).headD ' ' ≠ '-' := by
      cases htrim : trimWs s with
      | nil => exact absurd htrim ht
      | cons a r =>
        simp only [List.headD_cons]
        intro ha
        rw [htrim] at hsub
        exact hsub (ha ▸ List.mem_cons_self a r)
    rw [if_neg hhead] at h
    by_cases hplus : (trimWs s).headD ' ' = '+'
    · rw [if_pos hplus] at h
      exact parseUDec_num_nonneg h
    · rw [if_neg hplus] at h
      split at h
      · cases h; exact parseNonDec_num_nonneg (by assumption)
      · exact parseUDec_num_nonneg h

/-- Every value contributed by a token is at least `-1`. -/
theorem tokenIndices_ge {tok : List Char} {q : Frac}
    (h : q ∈ tokenIndices tok) : (-1 : ℚ) ≤ q.toRat := by
  rw [tokenIndices] at h
  by_cases hm : '-' ∈ tok
  · rw [if_pos hm] at h
    cases hs : rStart tok with
    | none =>
      rw [hs] at h
      cases he : rEnd tok with
      | none => rw [he] at h; exact absurd h (by simp)
      | some e => rw [he] at h; exact absurd h (by simp)
    | some s =>
      rw [hs] at h
      cases he : rEnd tok with
      | none => rw [he] at h; exact absurd h (by simp)
      | some e =>
        rw [he] at h
        simp only [List.mem_map] at h
        rcases h with ⟨k, _, hk⟩
        subst hk
        have hsnn : 0 ≤ s.num := by
          rw [rStart] at hs
          cases hsp : splitOnChar '-' tok with
          | nil => rw [hsp] at hs; exact absurd hs (by simp)
          | cons p rest =>
            rw [hsp] at hs
            have hp : '-' ∉ p := splitOnChar_sep_not_mem '-' tok p (hsp ▸ List.mem_cons_self p rest)
            exact jsNumber_num_nonneg hp hs
        rw [Frac.toRat_sub, Frac.toRat_addNat, Frac.toRat_one]
        have h1 : (0 : ℚ) ≤ s.toRat := Frac.toRat_nonneg hsnn
        have h2 : (0 : ℚ) ≤ (k : ℚ) := Nat.cast_nonneg k
        linarith
  · rw [if_neg hm] at h
    cases hp : jsNumber tok with
    | none => rw [hp] at h; exact absurd h (by simp)
    | some p =>
      rw [hp] at h
      rcases List.mem_singleton.mp h with rfl
      rw [Frac.toRat_sub, Frac.toRat_one]
      have h1 : (0 : ℚ) ≤ p.toRat := Frac.toRat_nonneg (jsNumber_num_nonneg hm hp)
      linarith

/-- Within one token the contributed values are strictly ascending. -/
theorem tokenIndices_pairwise (tok : List Char) :
    List.Pairwise (fun a b : Frac => a.toRat < b.toRat) (tokenIndices tok) := by
  rw [tokenIndices]
  by_cases hm : '-' ∈ tok
  · rw [if_pos hm]
    cases hs : rStart tok with
    | none => cases he : rEnd tok with
      | none => simp
      | some e => simp
    | some s => cases he : rEnd tok with
      | none => simp
      | some e =>
        dsimp only
        refine List.Pairwise.map _ ?_ (List.pairwise_lt_range (iterCount s e))
        intro a b hab
        rw [Frac.toRat_sub, Frac.toRat_sub, Frac.toRat_addNat, Frac.toRat_addNat]
        have : (a : ℚ) < (b : ℚ) := by exact_mod_cast hab
        linarith
  · rw [if_neg hm]
    cases hp : jsNumber tok with
    | none => simp
    | some p => simp

/-!
List lemmas for the drag-and-drop move.
-/

/-- Putting the element at position `i` back in front of the rest is a
permutation of the original list. -/
theorem cons_eraseIdx_perm {α : Type} :
    ∀ (l : List α) (i : ℕ) (x : α), l[i]? = some x → (x :: l.eraseIdx i).Perm l := by
  intro l
  induction l with
  | nil => intro i x hx; simp at hx
  | cons a t ih =>
    intro i x hx
    cases i with
    | zero =>
      simp only [List.getElem?_cons_zero, Option.some_inj] at hx
      subst hx
      simp [List.eraseIdx]
    | succ i =>
      simp only [List.getElem?_cons_succ] at hx
      have hperm := ih i x hx
      show (x :: a :: t.eraseIdx i).Perm (a :: t)
      exact (List.Perm.swap a x (t.eraseIdx i)).trans (List.Perm.cons a hperm)

/-- Reinserting the element removed at `i` at the same position restores
the list. -/
theorem insertIdx_eraseIdx_self {α : Type} :
    ∀ (l : List α) (i : ℕ) (x : α), l[i]? = some x → (l.eraseIdx i).insertIdx i x = l := by
  intro l
  induction l with
  | nil => intro i x hx; simp at hx
  | cons a t ih =>
    intro i x hx
    cases i with
    | zero =>
      simp only [List.getElem?_cons_zero, Option.some_inj] at hx
      subst hx
      simp [List.eraseIdx]
    | succ i =>
      simp only [List.getElem?_cons_succ] at hx
      show a :: (t.eraseIdx i).insertIdx i x = a :: t
      rw [ih i x hx]

/-- A well-formed drag-and-drop move permutes the list. -/
theorem dragDropMove_perm {α : Type} (l : List α) (i j : ℕ)
    (hi : i < l.length) (hj : j < l.length) : (dragDropMove l i j).Perm l := by
  rw [dragDropMove]
  by_cases hij : i = j
  · rw [if_pos hij]
  · rw [if_neg hij]
    rw [List.getElem?_eq_getElem hi]
    have hlen : (l.eraseIdx i).length = l.length - 1 := by
      rw [List.length_eraseIdx, if_pos hi]
    have hjle : j ≤ (l.eraseIdx i).length := by omega
    exact (List.perm_insertIdx _ _ hjle).trans
      (cons_eraseIdx_perm l i l[i] (List.getElem?_eq_getElem hi))

/-!
Lemmas about `copyPages`.
-/

/-- If `copyPages` succeeds, the output is exactly the page at each
requested index, in the order (and multiplicity) of the request. -/
theorem copyPages_eq_map {pgs : List ℕ} :
    ∀ {idxs : List Frac} {copied : List ℕ}, copyPages pgs idxs = some copied →
      copied = idxs.map fun q => pgs.getD (q.num / (q.den : ℤ)).toNat 0 := by
  intro idxs
  induction idxs with
  | nil => intro copied h; rw [copyPages] at h; cases h; rfl
  | cons q rest ih =>
    intro copied h
    rw [copyPages] at h
    cases hb : (q.asPageIdx pgs.length).bind fun i => pgs[i]? with
    | none => rw [hb] at h; exact absurd h (by simp)
    | some v =>
      rw [hb] at h
      cases hr : copyPages pgs rest with
      | none => rw [hr] at h; exact absurd h (by simp)
      | some vs =>
        rw [hr] at h
        cases h
        rcases Option.bind_eq_some.mp hb with ⟨idx, hidx, hval⟩
        simp only [Frac.asPageIdx] at hidx
        split at hidx
        · rcases Option.some_inj.mp hidx with rfl
          rw [List.map_cons, ← ih hr, List.getD_eq_getElem?_getD, hval]
          rfl
        · exact absurd hidx (by simp)

/-- `copyPages` fails exactly when some requested index resolves to no
page. -/
theorem copyPages_none_iff {pgs : List ℕ} :
    ∀ {idxs : List Frac}, copyPages pgs idxs = none ↔
      ∃ q ∈ idxs, Frac.asPageIdx q pgs.length = none := by
  intro idxs
  induction idxs with
  | nil => simp [copyPages]
  | cons q rest ih =>
    rw [copyPages]
    constructor
    · intro h
      by_cases hq : Frac.asPageIdx q pgs.length = none
      · exact ⟨q, List.mem_cons_self q rest, hq⟩
      · rcases Option.ne_none_iff_exists'.mp hq with ⟨i, hi⟩
        have hidx : i < pgs.length := by
          simp only [Frac.asPageIdx] at hi
          split at hi
          · rcases Option.some_inj.mp hi with rfl
            rename_i hcond
            have hnn : 0 ≤ q.num / (q.den : ℤ) :=
              Int.ediv_nonneg hcond.2.1 (Int.natCast_nonneg _)
            omega
          · exact absurd hi (by simp)
        have hbind : ((Frac.asPageIdx q pgs.length).bind fun k => pgs[k]?) = some pgs[i] := by
          rw [hi, Option.some_bind, List.getElem?_eq_getElem hidx]
        rw [hbind] at h
        cases hr : copyPages pgs rest with
        | none => exact (ih.mp hr).imp fun a hh => ⟨List.mem_cons_of_mem q hh.1, hh.2⟩
        | some vs => rw [hr] at h; exact absurd h (by simp)
    · intro hex
      rcases hex with ⟨a, ha, hnone⟩
      rcases List.mem_cons.mp ha with rfl | ha2
      · rw [hnone, Option.none_bind]
      · have hrest : copyPages pgs rest = none := ih.mpr ⟨a, ha2, hnone⟩
        rw [hrest]
        cases hb : (Frac.asPageIdx q pgs.length).bind fun k => pgs[k]? with
        | none => rfl
        | some v => rfl

/-!
Lemmas about the composer.
-/

/-- The per-image loop, run from an already-started document, appends
one page per image in list order. -/
theorem generatePDFLoop_some (decode : Url → ℕ × ℕ) :
    ∀ (imgs : List ImageFile) (acc : List Page),
      generatePDFLoop decode imgs (some acc) = some (acc ++ imgs.map (specPage decode)) := by
  intro imgs
  induction imgs with
  | nil => intro acc; simp [generatePDFLoop]
  | cons img rest ih =>
    intro acc
    rw [generatePDFLoop, ih]
    simp [specPage]

/-- For a non-empty image list the composer saves `converted.pdf` with
exactly one page per image, in list order. -/
theorem generatePDF_eq (decode : Url → ℕ × ℕ) (images : List ImageFile)
    (h : images ≠ []) :
    generatePDF decode images = GenResult.saved "converted.pdf" (images.map (specPage decode)) := by
  match images, h with
  | img :: rest, _ =>
    rw [generatePDF]
    have hne : (img :: rest).isEmpty = false := rfl
    rw [hne]
    simp only [Bool.false_eq_true, if_false, generatePDFLoop, generatePDFLoop_some]
    simp [specPage]

theorem mmOfPx_toRat (px : ℕ) : (mmOfPx px).toRat = (px : ℚ) * 25.4 / 72 := by
  rw [Frac.toRat, mmOfPx]
  push_cast
  norm_num
  ring

theorem mmOfPx_lt_iff (a b : ℕ) : Frac.lt (mmOfPx a) (mmOfPx b) ↔ a < b := by
  simp only [Frac.lt, mmOfPx]
  omega

/-!
Lemmas about operation sequences on the image list.
-/

/-- One well-formed operation preserves id uniqueness, and every entry
after it was either already present (unchanged) or is a freshly created
entry of an add. -/
theorem applyOp_invariant (st : AppState) (op : Op) (hwf : opWF st op)
    (hnd : (st.images.map ImageFile.id).Nodup) :
    ((applyOp st op).images.map ImageFile.id).Nodup ∧
    ∀ e ∈ (applyOp st op).images, e ∈ st.images ∨ e ∈ addedEntries [op] := by
  cases op with
  | addImgs files =>
    rcases hwf with ⟨hfnd, hfresh⟩
    have hmap : (files.map mkEntry).map ImageFile.id = files.map Prod.fst := by
      rw [List.map_map]; rfl
    constructor
    · show ((st.images ++ files.map mkEntry).map ImageFile.id).Nodup
      rw [List.map_append, hmap]
      refine List.Nodup.append hnd hfnd ?_
      rw [List.disjoint_left]
      intro a ha hb
      rcases List.mem_map.mp hb with ⟨p, hp, hpa⟩
      exact hfresh p hp (hpa ▸ ha)
    · intro e he
      rcases List.mem_append.mp he with h1 | h1
      · exact Or.inl h1
      · refine Or.inr ?_
        simp only [addedEntries, List.flatMap_cons, List.flatMap_nil, List.append_nil]
        exact h1
  | removeImg id =>
    have himg : (removeImage st id).images = st.images.filter fun img => img.id ≠ id := by
      rw [removeImage]
      cases st.images.find? fun img => img.id = id with
      | none => rfl
      | some r =>
        dsimp only
        cases r.croppedUrl with
        | none => rfl
        | some cu => rfl
    constructor
    · show ((removeImage st id).images.map ImageFile.id).Nodup
      rw [himg]
      exact hnd.sublist (List.Sublist.map ImageFile.id (List.filter_sublist st.images))
    · intro e he
      have he2 : e ∈ (removeImage st id).images := he
      rw [himg] at he2
      exact Or.inl (List.mem_filter.mp he2).1
  | dropAt i j =>
    rcases hwf with ⟨hi, hj⟩
    have hperm := dragDropMove_perm st.images i j hi hj
    constructor
    · exact ((hperm.map ImageFile.id).symm.nodup hnd)
    · intro e he
      exact Or.inl (hperm.mem_iff.mp he)

/-- Entries added along `op :: ops` split into the entries of `op` and
those of `ops`. -/
theorem addedEntries_cons (op : Op) (ops : List Op) :
    addedEntries (op :: ops) = addedEntries [op] ++ addedEntries ops := by
  simp [addedEntries, List.flatMap_cons]

/-!
Claim C1 — the range parser, token by token.
-/

/-- C1, counterexample.  The claim says a token that does not parse as
an integer contributes nothing and that the parser emits zero-based
indices; but on `"1.5"` (whose `Number` value `1.5` is not an integer)
the parser emits the single value `0.5`, which is not a zero-based
index. -/
theorem claimC1_counterexample :
    pagesToExtract "1.5" ≠ [] ∧
    (pagesToExtract "1.5").map Frac.toRat = [(1 : ℚ) / 2] ∧
    ¬ ∃ n : ℤ, ((1 : ℚ) / 2) = (n : ℚ) := by
  refine ⟨by decide, ?_, ?_⟩
  · have h : pagesToExtract "1.5" = [⟨5, 10, by decide⟩] := by decide
    rw [h]
    simp only [List.map_cons, List.map_nil, Frac.toRat]
    norm_num
  · rintro ⟨n, hn⟩
    have h2 : (1 : ℚ) = 2 * (n : ℚ) := by
      field_simp at hn
      linarith
    have h3 : (1 : ℤ) = 2 * n := by exact_mod_cast h2
    omega

/-- C1, amended.  For every range expression the parser splits on `,`
and emits, in token order, the contribution of each token; within a
range token contributions are strictly ascending; a range token whose
start exceeds its end contributes nothing; a token (or range endpoint)
whose `Number` conversion is NaN contributes nothing.  (Contributions
are `value - 1` for JS-number values, which need not be zero-based
indices: non-integer or non-positive values pass through, see the
counterexample.) -/
theorem claimC1_theorem (s : String) :
    pagesToExtract s = (splitOnChar ',' s.data).flatMap tokenIndices ∧
    (∀ tok, List.Pairwise (fun a b : Frac => a.toRat < b.toRat) (tokenIndices tok)) ∧
    (∀ tok s0 e0, '-' ∈ tok → rStart tok = some s0 → rEnd tok = some e0 →
      ¬ Frac.le s0 e0 → tokenIndices tok = []) ∧
    (∀ tok, '-' ∈ tok → rStart tok = none → tokenIndices tok = []) ∧
    (∀ tok e0, '-' ∈ tok → rStart tok = some e0 → rEnd tok = none → tokenIndices tok = []) ∧
    (∀ tok, '-' ∉ tok → jsNumber tok = none → tokenIndices tok = []) := by
  refine ⟨?_, tokenIndices_pairwise, ?_, ?_, ?_, ?_⟩
  · rw [pagesToExtract, pagesToExtractL_eq]
  · intro tok s0 e0 hm hs he hle
    rw [tokenIndices, if_pos hm, hs, he]
    dsimp only
    rw [iterCount, if_neg hle]
    simp
  · intro tok hm hs
    rw [tokenIndices, if_pos hm, hs]
  · intro tok e0 hm hs he
    rw [tokenIndices, if_pos hm, hs, he]
  · intro tok hm hnone
    rw [tokenIndices, if_neg hm, hnone]

/-- C1, witness at `"1-3,5"` and the tokens `1-3` and `3-1`. -/
theorem claimC1_witness :
    pagesToExtract "1-3,5" = (splitOnChar ',' "1-3,5".data).flatMap tokenIndices ∧
    List.Pairwise (fun a b : Frac => a.toRat < b.toRat) (tokenIndices ['1', '-', '3']) ∧
    tokenIndices ['3', '-', '1'] = [] := by
  obtain ⟨h1, h2, h3, _, _, _⟩ := claimC1_theorem "1-3,5"
  exact ⟨h1, h2 ['1', '-', '3'],
    h3 ['3', '-', '1'] (Frac.ofNat 3) (Frac.ofNat 1) (by decide) (by decide) (by decide)
      (by decide)⟩

/-!
Claim C3 — range of the parsed values.
-/

/-- C3, counterexample.  The claim says every element of a non-empty
parse is a non-negative integer; but `parse("0")` is the non-empty list
`[-1]`. -/
theorem claimC3_counterexample :
    pagesToExtract "0" = [⟨-1, 1, Nat.one_pos⟩] ∧
    Frac.toRat ⟨-1, 1, Nat.one_pos⟩ < 0 := by
  constructor
  · decide
  · norm_num [Frac.toRat]

/-- C3, amended.  Every element of any parse result is a rational value
at least `-1` (but need not be a non-negative integer). -/
theorem claimC3_theorem (s : String) (q : Frac) (hq : q ∈ pagesToExtract s) :
    (-1 : ℚ) ≤ q.toRat := by
  rw [pagesToExtract, pagesToExtractL_eq] at hq
  rcases List.mem_flatMap.mp hq with ⟨tok, _, hmem⟩
  exact tokenIndices_ge hmem

/-- C3, witness at `"1"`. -/
theorem claimC3_witness : (-1 : ℚ) ≤ Frac.toRat ⟨0, 1, Nat.one_pos⟩ :=
  claimC3_theorem "1" ⟨0, 1, Nat.one_pos⟩ (by decide)

/-!
Claim C4 — validation behaviour of the extract operation.
-/

/-- C4, counterexample.  On `"abc"` (a non-empty expression whose parse
is empty) the notification is error-level, not warning-level as the
claim states. -/
theorem claimC4_counterexample :
    pagesToExtract "abc" = [] ∧
    splitPDF (some srcPdfExample) "abc" =
      ⟨Severity.error, "Invalid ranges", false, none⟩ ∧
    (splitPDF (some srcPdfExample) "abc").sev ≠ Severity.warning := by
  refine ⟨by decide, by decide, by decide⟩

/-- C4, amended.  With a document selected: an empty (or all-blank)
expression is rejected before parsing with a warning-level
notification; a non-empty expression whose parse is empty is rejected
with an error-level "Invalid ranges" notification.  In both cases the
source document is not loaded and no output is produced. -/
theorem claimC4_theorem (f : SrcPdf) (expr : String) :
    (trimWs expr.data = [] →
      splitPDF (some f) expr = ⟨Severity.warning, "No ranges", false, none⟩) ∧
    (trimWs expr.data ≠ [] → pagesToExtract expr = [] →
      splitPDF (some f) expr = ⟨Severity.error, "Invalid ranges", false, none⟩) := by
  constructor
  · intro h
    rw [splitPDF]
    rw [if_pos h]
  · intro h1 h2
    rw [splitPDF]
    rw [if_neg h1, if_pos h2]

/-- C4, witness at `" "` and `"abc"`. -/
theorem claimC4_witness :
    splitPDF (some srcPdfExample) " " = ⟨Severity.warning, "No ranges", false, none⟩ ∧
    splitPDF (some srcPdfExample) "abc" =
      ⟨Severity.error, "Invalid ranges", false, none⟩ := by
  obtain ⟨h1, _⟩ := claimC4_theorem srcPdfExample " "
  obtain ⟨_, h2⟩ := claimC4_theorem srcPdfExample "abc"
  exact ⟨h1 (by decide), h2 (by decide) (by decide)⟩

/-!
Claim C5 — the extract operation.
-/

/-- C5, confirmed.  With a document selected and a non-trivial parsed
index list: an unparsable source document, any unresolvable index, or a
save failure each yield the single error-level notification with no
output; when everything succeeds, the offered download is named by
prefixing `split_` to the source file name and contains exactly the
page at each requested index, in the requested order, duplicates
included. -/
theorem claimC5_theorem (f : SrcPdf) (expr : String)
    (h1 : trimWs expr.data ≠ []) (h2 : pagesToExtract expr ≠ []) :
    (f.doc = none → splitPDF (some f) expr = ⟨Severity.error, "Error", true, none⟩) ∧
    (∀ pgs, f.doc = some pgs →
      (copyPages pgs (pagesToExtract expr) = none →
        splitPDF (some f) expr = ⟨Severity.error, "Error", true, none⟩) ∧
      (copyPages pgs (pagesToExtract expr) = none ↔
        ∃ q ∈ pagesToExtract expr, Frac.asPageIdx q pgs.length = none) ∧
      (∀ copied, copyPages pgs (pagesToExtract expr) = some copied →
        copied = (pagesToExtract expr).map
          (fun q => pgs.getD (q.num / (q.den : ℤ)).toNat 0) ∧
        (f.saveOk = true → splitPDF (some f) expr =
          ⟨Severity.success, "Success", true, some ("split_" ++ f.name, copied)⟩) ∧
        (f.saveOk = false →
          splitPDF (some f) expr = ⟨Severity.error, "Error", true, none⟩))) := by
  have hbase : splitPDF (some f) expr =
      (match f.doc with
      | none => ⟨Severity.error, "Error", true, none⟩
      | some pgs =>
        match copyPages pgs (pagesToExtract expr) with
        | none => ⟨Severity.error, "Error", true, none⟩
        | some copied =>
          if f.saveOk then
            ⟨Severity.success, "Success", true, some ("split_" ++ f.name, copied)⟩
          else ⟨Severity.error, "Error", true, none⟩) := by
    rw [splitPDF]
    rw [if_neg h1, if_neg h2]
  constructor
  · intro hdoc
    rw [hbase, hdoc]
  · intro pgs hdoc
    refine ⟨?_, copyPages_none_iff, ?_⟩
    · intro hcp
      rw [hbase, hdoc]
      dsimp only
      rw [hcp]
    · intro copied hcp
      refine ⟨copyPages_eq_map hcp, ?_, ?_⟩
      · intro hsave
        rw [hbase, hdoc]
        dsimp only
        rw [hcp]
        dsimp only
        rw [if_pos hsave]
      · intro hsave
        rw [hbase, hdoc]
        dsimp only
        rw [hcp]
        dsimp only
        rw [if_neg (by rw [hsave]; exact Bool.false_ne_true)]

/-- C5, witness: extracting pages `1,3,1` from the three-page example
document. -/
theorem claimC5_witness :
    splitPDF (some srcPdfExample) "1,3,1" =
      ⟨Severity.success, "Success", true, some ("split_doc.pdf", [10, 30, 10])⟩ ∧
    [10, 30, 10] = (pagesToExtract "1,3,1").map
      (fun q => [10, 20, 30].getD (q.num / (q.den : ℤ)).toNat 0) := by
  obtain ⟨_, hsome⟩ := claimC5_theorem srcPdfExample "1,3,1" (by decide) (by decide)
  obtain ⟨_, _, hcopy⟩ := hsome [10, 20, 30] rfl
  obtain ⟨hmap, hsucc, _⟩ := hcopy [10, 30, 10] (by decide)
  exact ⟨hsucc rfl, hmap⟩

/-!
Claim C2 — the composer.
-/

/-- C2, confirmed.  For every non-empty image list the composer saves
`converted.pdf` with exactly one page per image, in list order; each
page is sized from the effective image (the cropped version if present,
else the original) by `mm = px * 25.4 / 72` applied to its decoded
pixel width and height; the page is landscape exactly when the pixel
width exceeds the pixel height; and the image is rendered at the origin
covering the whole page. -/
theorem claimC2_theorem (decode : Url → ℕ × ℕ) (images : List ImageFile)
    (h : images ≠ []) :
    generatePDF decode images =
      GenResult.saved "converted.pdf" (images.map (specPage decode)) ∧
    (images.map (specPage decode)).length = images.length ∧
    (∀ img : ImageFile, (∀ cu, img.croppedUrl = some cu → effectiveUrl img = cu) ∧
      (img.croppedUrl = none → effectiveUrl img = img.url)) ∧
    ∀ img ∈ images,
      (specPage decode img).wMM.toRat = ((decode (effectiveUrl img)).1 : ℚ) * 25.4 / 72 ∧
      (specPage decode img).hMM.toRat = ((decode (effectiveUrl img)).2 : ℚ) * 25.4 / 72 ∧
      (specPage decode img).imgUrl = effectiveUrl img ∧
      (specPage decode img).imgX = Frac.zero ∧
      (specPage decode img).imgY = Frac.zero ∧
      (specPage decode img).imgW = (specPage decode img).wMM ∧
      (specPage decode img).imgH = (specPage decode img).hMM ∧
      ((specPage decode img).landscape ↔
        (decode (effectiveUrl img)).2 < (decode (effectiveUrl img)).1) := by
  refine ⟨generatePDF_eq decode images h, List.length_map _ _, ?_, ?_⟩
  · intro img
    constructor
    · intro cu hcu
      rw [effectiveUrl, hcu]
    · intro hcu
      rw [effectiveUrl, hcu]
  · intro img _
    refine ⟨mmOfPx_toRat _, mmOfPx_toRat _, rfl, rfl, rfl, rfl, rfl, ?_⟩
    exact mmOfPx_lt_iff _ _

/-- C2, witness: one 4×3 image. -/
theorem claimC2_witness :
    generatePDF (fun _ => (4, 3)) [⟨0, Url.obj 0, none, none⟩] =
      GenResult.saved "converted.pdf"
        [specPage (fun _ => (4, 3)) ⟨0, Url.obj 0, none, none⟩] ∧
    (specPage (fun _ => (4, 3)) ⟨0, Url.obj 0, none, none⟩).wMM.toRat =
      (4 : ℚ) * 25.4 / 72 ∧
    ((specPage (fun _ => (4, 3)) ⟨0, Url.obj 0, none, none⟩).landscape ↔ (3 : ℕ) < 4) := by
  obtain ⟨hgen, _, _, hpages⟩ :=
    claimC2_theorem (fun _ => (4, 3)) [⟨0, Url.obj 0, none, none⟩] (by simp)
  obtain ⟨hw, _, _, _, _, _, _, hl⟩ :=
    hpages ⟨0, Url.obj 0, none, none⟩ (List.mem_singleton.mpr rfl)
  exact ⟨hgen, hw, hl⟩

/-!
Claim C6 — replacing a cropped reference.
-/

/-- C6, code evaluated at the failing input.  Re-cropping the
already-cropped entry does replace the entry's cropped reference (no
entry keeps the old handle), but the superseded handle is never
revoked: it is still live afterwards.  `applyCrop` contains no
`URL.revokeObjectURL` call at all. -/
theorem claimC6_bug :
    recropResult.2 = ApplyOutcome.applied ∧
    (∀ img ∈ recropResult.1.images, img.croppedUrl ≠ some urlPrevCrop) ∧
    urlPrevCrop ∈ recropResult.1.live := by
  refine ⟨by decide, by decide, by decide⟩

/-!
Claim C7 — degenerate crop region.
-/

/-- C7, code evaluated at the failing input.  With a rendering surface
and context available but a zero-width crop region, `canvas.toBlob`
passes `null` to its callback, `resolve` is never called, and the
awaited promise never settles: the state is left unmutated (as the
claim says) but no failure is ever reported (contrary to the claim) —
the operation simply hangs. -/
theorem claimC7_bug :
    degenResult = (stateCropped, ApplyOutcome.neverResolves) ∧
    degenResult.2 ≠ ApplyOutcome.failedReported ∧
    (applyCrop stateCropped true (some rectZeroW) (some entryCropped) false true
      Frac.one Frac.one Frac.one Frac.one) = (stateCropped, ApplyOutcome.failedReported) := by
  refine ⟨by decide, by decide, by decide⟩

/-!
Claim C8 — invariants of add/remove/reorder sequences.
-/

/-- C8, confirmed (under the freshness/validity conditions `wfOps`:
ids created by an add are fresh and pairwise distinct, and drag/drop
positions are positions of rendered tiles).  After any such operation
sequence, entry ids are unique, and every remaining entry is, as a
value (identity, handles and crop state), either an untouched entry of
the initial list or an entry exactly as created by one of the adds. -/
theorem claimC8_theorem (st : AppState) (ops : List Op)
    (hwf : wfOps st ops) (hnd : (st.images.map ImageFile.id).Nodup) :
    ((runOps st ops).images.map ImageFile.id).Nodup ∧
    ∀ e ∈ (runOps st ops).images, e ∈ st.images ∨ e ∈ addedEntries ops := by
  induction ops generalizing st with
  | nil => exact ⟨hnd, fun e he => Or.inl he⟩
  | cons op ops ih =>
    obtain ⟨h1, h2⟩ := hwf
    obtain ⟨hop1, hop2⟩ := applyOp_invariant st op h1 hnd
    have hrun : runOps st (op :: ops) = runOps (applyOp st op) ops := rfl
    obtain ⟨ihn, ihm⟩ := ih (applyOp st op) h2 hop1
    refine ⟨hrun ▸ ihn, ?_⟩
    intro e he
    rw [hrun] at he
    rcases ihm e he with h | h
    · rcases hop2 e h with h1 | h1
      · exact Or.inl h1
      · right
        rw [addedEntries_cons]
        exact List.mem_append.mpr (Or.inl h1)
    · right
      rw [addedEntries_cons]
      exact List.mem_append.mpr (Or.inr h)

/-- C8, witness: add two images, swap them, remove one. -/
theorem claimC8_witness :
    ((runOps stEmpty opsExample).images.map ImageFile.id).Nodup ∧
    ∀ e ∈ (runOps stEmpty opsExample).images,
      e ∈ stEmpty.images ∨ e ∈ addedEntries opsExample :=
  claimC8_theorem stEmpty opsExample (by decide) (by decide)

/-!
Claim C9 — a drag-and-drop move followed by its reverse.
-/

/-- C9, confirmed.  For valid positions `i` and `j`, moving `i` to `j`
and then `j` back to `i`, with no other mutation in between, restores
the original list. -/
theorem claimC9_theorem {α : Type} (l : List α) (i j : ℕ)
    (hi : i < l.length) (hj : j < l.length) :
    dragDropMove (dragDropMove l i j) j i = l := by
  by_cases hij : i = j
  · subst hij
    rw [dragDropMove, if_pos rfl, dragDropMove, if_pos rfl]
  · have hx : l[i]? = some l[i] := List.getElem?_eq_getElem hi
    have hlen1 : (l.eraseIdx i).length = l.length - 1 := by
      rw [List.length_eraseIdx, if_pos hi]
    have hjle : j ≤ (l.eraseIdx i).length := by omega
    have hmove1 : dragDropMove l i j = (l.eraseIdx i).insertIdx j l[i] := by
      rw [dragDropMove, if_neg hij, hx]
    have hlen2 : ((l.eraseIdx i).insertIdx j l[i]).length = l.length := by
      rw [List.length_insertIdx j _ hjle]
      omega
    have hj2 : j < ((l.eraseIdx i).insertIdx j l[i]).length := by
      rw [hlen2]; exact hj
    have hget : ((l.eraseIdx i).insertIdx j l[i])[j]? = some l[i] := by
      rw [List.getElem?_eq_getElem hj2, List.getElem_insertIdx_self _ _ _ hjle]
    rw [hmove1, dragDropMove, if_neg (Ne.symm hij), hget]
    rw [List.eraseIdx_insertIdx]
    exact insertIdx_eraseIdx_self l i l[i] hx

/-- C9, witness on `[10, 20, 30]` with `i = 0`, `j = 2`. -/
theorem claimC9_witness :
    dragDropMove (dragDropMove [10, 20, 30] 0 2) 2 0 = [10, 20, 30] :=
  claimC9_theorem [10, 20, 30] 0 2 (by decide) (by decide)

/-!
Claim C10 — re-cropping samples the original image.
-/

/-- C10, confirmed.  A successful crop application on the modal entry
`fsi` stores a cropped reference derived from `fsi.url` — the entry's
original object URL, which the crop dialog displays — scaled by
`natural/displayed`; the stored value does not depend on the entry's
current cropped reference, so a second crop replaces the first crop's
effect instead of compounding it. -/
theorem claimC10_theorem (st : AppState) (fsi : ImageFile) (c : Rect)
    (natW natH dispW dispH : Frac)
    (hw : Frac.le Frac.one c.w) (hh : Frac.le Frac.one c.h) :
    (applyCrop st true (some c) (some fsi) true true natW natH dispW dispH).2 =
      ApplyOutcome.applied ∧
    ∀ img ∈ (applyCrop st true (some c) (some fsi) true true natW natH dispW dispH).1.images,
      img.id = fsi.id →
      img.croppedUrl = some (croppedUrlFor fsi.url natW natH dispW dispH c) := by
  have hcrop : getCroppedImg true true fsi.url natW natH dispW dispH c =
      CropResult.done (croppedUrlFor fsi.url natW natH dispW dispH c) := by
    rw [getCroppedImg]
    rw [if_neg (by simp), if_neg (by simp), if_pos ⟨hw, hh⟩]
  have happ : applyCrop st true (some c) (some fsi) true true natW natH dispW dispH =
      (⟨st.images.map fun img =>
          if img.id = fsi.id then
            { img with croppedUrl := some (croppedUrlFor fsi.url natW natH dispW dispH c),
                       crop := some c }
          else img,
        croppedUrlFor fsi.url natW natH dispW dispH c :: st.live⟩,
       ApplyOutcome.applied) := by
    rw [applyCrop]
    rw [hcrop]
  rw [happ]
  refine ⟨rfl, ?_⟩
  intro img hmem hid
  rcases List.mem_map.mp hmem with ⟨img0, hmem0, heq⟩
  by_cases h0 : img0.id = fsi.id
  · rw [if_pos h0] at heq
    rw [← heq]
  · rw [if_neg h0] at heq
    rw [← heq] at hid
    exact absurd hid h0

/-- C10, witness: re-cropping the already-cropped fixture entry with
unit scale factors. -/
theorem claimC10_witness :
    (applyCrop stateCropped true (some rectNew) (some entryCropped) true true
      Frac.one Frac.one Frac.one Frac.one).2 = ApplyOutcome.applied ∧
    ∀ img ∈ (applyCrop stateCropped true (some rectNew) (some entryCropped) true true
        Frac.one Frac.one Frac.one Frac.one).1.images,
      img.id = entryCropped.id →
      img.croppedUrl =
        some (croppedUrlFor entryCropped.url Frac.one Frac.one Frac.one Frac.one rectNew) :=
  claimC10_theorem stateCropped entryCropped rectNew Frac.one Frac.one Frac.one Frac.one
    (by decide) (by decide)
